import Mathlib

/-!
Verification of `src/utils/frequency.py` (fingerprint ridge-frequency
estimation).

The Python source computes, per image block, a ridge frequency estimate
(`frequest`), and drives it over an image in `ridge_freq`.  We embed the
code shallowly:

* image data is `List (List ℚ)` (the float arithmetic of the source is
  modelled by exact rationals);
* rational arithmetic is performed by `mkRat`-based wrappers (`qadd`,
  `qmul`, ...) so that concrete runs reduce inside the kernel; the bridge
  lemmas `qadd_eq`, `qmul_eq`, ... prove them equal to the field
  operations of `ℚ`;
* `scipy.ndimage.rotate` is an external resampling primitive; it is taken
  as an explicit function parameter `rot : RotFn`, and the embedding
  records exactly the arguments the source passes to it (the angle, the
  spline order `3`, and the boundary mode `"nearest"`);
* the block-orientation angle uses real trigonometry (`Real.sin`,
  `Real.cos`, `Complex.arg` for `math.atan2`), hence the full `frequest`
  and the driver are `noncomputable`; everything after the rotation is an
  executable rational computation;
* fallible indexing (numpy `IndexError` for a too-small orientation field,
  `range` with zero step) is modelled with `Except String`;
* `np.median` of an empty array yields NaN (with a warning, no exception);
  NaN is modelled by `Option ℚ` with `none` for NaN.
-/

/-! ### Kernel-evaluable rational arithmetic -/

/-- Rational addition in a kernel-evaluable form (`qadd_eq`). -/
def qadd (a b : ℚ) : ℚ := mkRat (a.num * (b.den : ℤ) + b.num * (a.den : ℤ)) (a.den * b.den)

/-- Rational negation in a kernel-evaluable form (`qneg_eq`). -/
def qneg (a : ℚ) : ℚ := mkRat (-a.num) a.den

/-- Rational subtraction in a kernel-evaluable form (`qsub_eq`). -/
def qsub (a b : ℚ) : ℚ := qadd a (qneg b)

/-- Rational multiplication in a kernel-evaluable form (`qmul_eq`). -/
def qmul (a b : ℚ) : ℚ := mkRat (a.num * b.num) (a.den * b.den)

/-- Rational inverse in a kernel-evaluable form (`qinv_eq`). -/
def qinv (a : ℚ) : ℚ :=
  mkRat (if a.num < 0 then -(a.den : ℤ) else (a.den : ℤ)) a.num.natAbs

/-- Rational division in a kernel-evaluable form (`qdiv_eq`). -/
def qdiv (a b : ℚ) : ℚ := qmul a (qinv b)

/-- The rational `n / 1` for a natural `n` (`qofNat_eq`). -/
def qofNat (n : ℕ) : ℚ := mkRat (n : ℤ) 1

/-- Sum of a list of rationals (`qsum_eq`). -/
def qsum (l : List ℚ) : ℚ := l.foldr qadd 0

/-- Maximum of two rationals (comparison is kernel-evaluable as is). -/
def qmax (a b : ℚ) : ℚ := if a ≤ b then b else a

/-- Absolute value of a rational (executable form of `np.abs`). -/
def qabs (x : ℚ) : ℚ := if x < 0 then qneg x else x

/-! ### Data model and the per-block pipeline after rotation -/

/-- A 2-D array of rationals (row major), as produced by numpy. -/
abbrev Grid := List (List ℚ)

/-- Number of columns of a (rectangular) grid: length of its first row. -/
def rowLen (g : Grid) : ℕ := (g.headD []).length

/-- Slicing `g[r0:r0+h][:, c0:c0+w]`: the row slice followed by the column slice,
exactly as the source writes it. -/
def slice2d (g : Grid) (r0 h c0 w : ℕ) : Grid :=
  ((g.drop r0).take h).map (fun row => (row.drop c0).take w)

/-- Model of `np.zeros((r, c))`. -/
def zerosGrid (r c : ℕ) : Grid := List.replicate r (List.replicate c 0)

/-- Model of `v * np.ones((r, c))`. -/
def constGrid (r c : ℕ) (v : ℚ) : Grid := List.replicate r (List.replicate c v)

/-- Elementwise sum of two rows (used for the axis-0 sum). -/
def addVec (a b : List ℚ) : List ℚ := List.zipWith qadd a b

/-- Model of `np.sum(g, axis=0)`: column-wise sums of a rectangular grid. -/
def colSum (g : Grid) : List ℚ :=
  g.foldr addVec (List.replicate (rowLen g) 0)

/-- Maximum of a non-empty list of rationals (`0` for the empty list,
which never occurs in the uses below). -/
def listMax : List ℚ → ℚ
  | [] => 0
  | x :: xs => xs.foldl qmax x

/-- Model of `np.mean l` (sum divided by length; division by zero is `0` in `ℚ`,
while numpy would give NaN for an empty array -- the empty case never
influences the peak set because the index range is empty too). -/
def listMean (l : List ℚ) : ℚ := qdiv (qsum l) (qofNat l.length)

/-- Index folding of scipy's default boundary mode `'reflect'`
(`(d c b a | a b c d | d c b a)`): reflection about the array edge. -/
def reflectIdx (n : ℕ) (z : ℤ) : ℕ :=
  if n = 0 then 0 else
    let m := (z % (2 * (n : ℤ))).toNat
    if m < n then m else 2 * n - 1 - m

/-- Model of `scipy.ndimage.grey_dilation(rs, kernel_size, structure=np.ones(kernel_size))`:
a *non-flat* dilation.  Each output sample is the maximum over the centered
window of width `k` of the input **plus the structuring-element value `1`**
(scipy adds the structure values), with `'reflect'` boundary handling. -/
def greyDilation (rs : List ℚ) (k : ℕ) : List ℚ :=
  (List.range rs.length).map (fun (i : ℕ) =>
    listMax ((List.range k).map (fun (j : ℕ) =>
      qadd (rs.getD (reflectIdx rs.length ((i : ℤ) + (j : ℤ) - ((k / 2 : ℕ) : ℤ))) 0) 1)))

/-- The peak indices collected by `frequest`
(`np.where((np.abs(dilation - ridge_sum) < 2) & (ridge_sum > np.mean(ridge_sum)))`),
in ascending order. -/
def peakIndices (rs : List ℚ) (k : ℕ) : List ℕ :=
  (List.range rs.length).filter (fun i =>
    decide (qabs (qsub ((greyDilation rs k).getD i 0) (rs.getD i 0)) < 2) &&
    decide (listMean rs < rs.getD i 0))

/-- Line 58, `waveLength = (maxind[0][-1] - maxind[0][0]) / (NoOfPeaks - 1)`. -/
def waveLen (peaks : List ℕ) : ℚ :=
  mkRat ((peaks.getLastD 0 : ℤ) - (peaks.headD 0 : ℤ)) (peaks.length - 1)

/-- Lines 55-63 of the source: the branch on the number of peaks and the
wavelength bounds, producing the output patch of shape `(r, c)`. -/
def freqFromPeaks (peaks : List ℕ) (r c : ℕ) (minW maxW : ℚ) : Grid :=
  if peaks.length < 2 then zerosGrid r c
  else if minW ≤ waveLen peaks ∧ waveLen peaks ≤ maxW then
    constGrid r c (qdiv 1 (waveLen peaks))
  else zerosGrid r c

/-- The largest `m ≤ n` satisfying `p` (`0` if none does). -/
def largestLe (p : ℕ → Bool) : ℕ → ℕ
  | 0 => 0
  | n + 1 => if p (n + 1) then n + 1 else largestLe p n

/-- Line 38, `int(np.fix(rows/np.sqrt(2)))`, in executable form: the largest `m`
with `2 m² ≤ rows²`, i.e. `⌊rows / √2⌋` (`cropsze_eq_floor` below). -/
def cropsze (rows : ℕ) : ℕ :=
  largestLe (fun m => decide (2 * m ^ 2 ≤ rows ^ 2)) rows

/-- Line 39, `int(np.fix((rows - cropsze)/2))`. -/
def cropOffset (rows : ℕ) : ℕ := (rows - cropsze rows) / 2

/-- Lines 35-63 of the source: everything `frequest` does after the
rotation call, given the same-size rotated block `rotim` and the original
block shape `(rows, cols)`: crop, column projection, dilation, peak
detection, and the wavelength branch. -/
def frequestPost (rotim : Grid) (rows cols k : ℕ) (minW maxW : ℚ) : Grid :=
  let cropped := slice2d rotim (cropOffset rows) (cropsze rows) (cropOffset rows) (cropsze rows)
  let ridge_sum := colSum cropped
  freqFromPeaks (peakIndices ridge_sum k) rows cols minW maxW


/-! ### The rotation stage and the full `frequest` -/

/-- Model of `math.atan2 y x`, via the complex argument (both lie in `(-π, π]` and
agree on all inputs, including `atan2 0 0 = 0 = Complex.arg 0`). -/
noncomputable def atan2 (y x : ℝ) : ℝ := Complex.arg ⟨x, y⟩

/-- Mean of a list of reals (`np.mean`). -/
noncomputable def listMeanR (l : List ℝ) : ℝ := l.sum / (l.length : ℝ)

/-- Lines 26-28 of the source: the doubled-angle circular mean of the
block orientation samples,
`math.atan2(mean(sin(2*orientim)), mean(cos(2*orientim))) / 2`. -/
noncomputable def block_orient (orientim : List ℝ) : ℝ :=
  atan2 (listMeanR (orientim.map (fun t => Real.sin (2 * t))))
        (listMeanR (orientim.map (fun t => Real.cos (2 * t)))) / 2

/-- The external resampling primitive `scipy.ndimage.rotate`: it receives
the image, the angle in degrees, the spline order, and the boundary mode,
and returns a same-size grid (`reshape=False`).  Its numerical behaviour
is outside the embedded core; `frequest` is proved for every `rot`. -/
abbrev RotFn := Grid → ℝ → ℕ → String → Grid

/-- A trivial instance of the rotation primitive (identity on the grid),
used to run the pipeline on concrete inputs. -/
def rotId : RotFn := fun g _ _ _ => g

/-- Lines 21-63 of the source: the full per-block estimator.  The rotation
call `scipy.ndimage.rotate(im, block_orient/np.pi*180 + 90, axes=(1,0),
reshape=False, order=3, mode='nearest')` is `rot` applied to the image,
the angle in degrees, the spline order `3` and the mode `"nearest"`. -/
noncomputable def frequest (rot : RotFn) (im : Grid) (orientim : List ℝ)
    (kernel_size : ℕ) (minWaveLength maxWaveLength : ℚ) : Grid :=
  let rows := im.length
  let cols := rowLen im
  let rotim := rot im (block_orient orientim / Real.pi * 180 + 90) 3 "nearest"
  frequestPost rotim rows cols kernel_size minWaveLength maxWaveLength

/-! ### The driver `ridge_freq` -/

/-- Python's `range(0, stop, step)` for a positive `step` and the (possibly
truncated-to-zero) natural `stop` used by the source. -/
def pyrange (stop step : ℕ) : List ℕ :=
  (List.range ((stop + step - 1) / step)).map (fun m => m * step)

/-- Lookup `orient[r][c]`, which numpy raises an `IndexError` for when out of
range: `none` models the error case. -/
def orientAt (orient : List (List ℝ)) (r c : ℕ) : Option ℝ :=
  (orient.get? r).bind (fun row => row.get? c)

/-- Assignment `freq[row:row+bs][:, col:col+bs] = patch`: numpy basic slicing yields
a view, so the assignment writes through into `freq`.  The buffer is
modelled as an index function. -/
def writePatch (f : ℕ → ℕ → ℚ) (r0 c0 : ℕ) (p : Grid) : ℕ → ℕ → ℚ :=
  fun i j =>
    if r0 ≤ i ∧ i < r0 + p.length ∧ c0 ≤ j ∧ j < c0 + rowLen p then
      (p.getD (i - r0) []).getD (j - c0) 0
    else f i j

/-- The inner `for col in range(0, cols - block_size, block_size)` loop of
`ridge_freq` for one fixed `row`: reads the orientation cell (possibly an
`IndexError`), runs `frequest` on the block slice, writes the patch. -/
noncomputable def colPass (rot : RotFn) (im : Grid) (orient : List (List ℝ))
    (bs k : ℕ) (minW maxW : ℚ) (row : ℕ) :
    List ℕ → (ℕ → ℕ → ℚ) → Except String (ℕ → ℕ → ℚ)
  | [], f => Except.ok f
  | col :: cols, f =>
      match orientAt orient (row / bs) (col / bs) with
      | none => Except.error "IndexError"
      | some th =>
          colPass rot im orient bs k minW maxW row cols
            (writePatch f row col (frequest rot (slice2d im row bs col bs) [th] k minW maxW))

/-- The outer `for row in range(0, rows - block_size, block_size)` loop. -/
noncomputable def rowPass (rot : RotFn) (im : Grid) (orient : List (List ℝ))
    (bs k : ℕ) (minW maxW : ℚ) :
    List ℕ → (ℕ → ℕ → ℚ) → Except String (ℕ → ℕ → ℚ)
  | [], f => Except.ok f
  | row :: rows, f =>
      match colPass rot im orient bs k minW maxW row (pyrange (rowLen im - bs) bs) f with
      | Except.error e => Except.error e
      | Except.ok g => rowPass rot im orient bs k minW maxW rows g

/-- Lines 70-77 of the source: the zero-initialised `freq` buffer after
both block loops, as an index function. -/
noncomputable def freqFn (rot : RotFn) (im : Grid) (orient : List (List ℝ))
    (bs k : ℕ) (minW maxW : ℚ) : Except String (ℕ → ℕ → ℚ) :=
  rowPass rot im orient bs k minW maxW (pyrange (im.length - bs) bs) (fun _ _ => 0)

/-- The `freq` array materialised with the image's shape
(`np.zeros((rows, cols))` filled by the block loops). -/
noncomputable def freqMap (rot : RotFn) (im : Grid) (orient : List (List ℝ))
    (bs k : ℕ) (minW maxW : ℚ) : Except String Grid :=
  match freqFn rot im orient bs k minW maxW with
  | Except.error e => Except.error e
  | Except.ok f =>
      Except.ok ((List.range im.length).map (fun i =>
        (List.range (rowLen im)).map (fun j => f i j)))

/-- Model of `freq * mask`: numpy elementwise product of same-shape grids. -/
def gridMul (a b : Grid) : Grid := List.zipWith (List.zipWith qmul) a b

/-- Insert into a sorted list (ascending). -/
def insertSorted (x : ℚ) : List ℚ → List ℚ
  | [] => [x]
  | y :: ys => if x ≤ y then x :: y :: ys else y :: insertSorted x ys

/-- Insertion sort, ascending (the order statistics `np.median` takes). -/
def insSort : List ℚ → List ℚ
  | [] => []
  | x :: xs => insertSorted x (insSort xs)

/-- Model of `np.median l`: middle order statistic (odd length), mean of the two
middle order statistics (even length), and NaN -- modelled as `none` --
for the empty list (numpy emits a RuntimeWarning and returns nan, it does
not raise). -/
def npMedian (l : List ℚ) : Option ℚ :=
  if l.length = 0 then none
  else
    let s := insSort l
    if l.length % 2 = 1 then some (s.getD (l.length / 2) 0)
    else some (qdiv (qadd (s.getD (l.length / 2 - 1) 0) (s.getD (l.length / 2) 0)) 2)

/-- Model of `np.median(non_zero_elems_in_freq) * mask`: a NaN scalar (`none`)
poisons every product, matching IEEE `nan * x = nan`. -/
def scalarTimesMask (m : Option ℚ) (mask : Grid) : List (List (Option ℚ)) :=
  mask.map (fun row => row.map (fun v => m.map (fun s => qmul s v)))

/-- Lines 66-88 of the source: the whole `ridge_freq` driver.  `bs = 0`
models Python's `range() arg 3 must not be zero` error. -/
noncomputable def ridge_freq (rot : RotFn) (im mask : Grid) (orient : List (List ℝ))
    (block_size kernel_size : ℕ) (minWaveLength maxWaveLength : ℚ) :
    Except String (List (List (Option ℚ))) :=
  if block_size = 0 then Except.error "range() arg 3 must not be zero" else
  match freqMap rot im orient block_size kernel_size minWaveLength maxWaveLength with
  | Except.error e => Except.error e
  | Except.ok freq0 =>
      let freq := gridMul freq0 mask
      let freq_1d := freq.flatten
      let ind := (List.range freq_1d.length).filter (fun t => decide (0 < freq_1d.getD t 0))
      let non_zero := ind.map (fun t => freq_1d.getD t 0)
      Except.ok (scalarTimesMask (npMedian non_zero) mask)

/-- Success test for `Except`, in a local, kernel-friendly form. -/
def isOkE {α : Type} : Except String α → Bool
  | Except.ok _ => true
  | Except.error _ => false

/-- Evaluate the buffer of a successful loop run at one pixel (`0` in the
error case, which uses below always exclude via `isOkE`). -/
def evalAtD (e : Except String (ℕ → ℕ → ℚ)) (i j : ℕ) : ℚ :=
  match e with
  | Except.ok f => f i j
  | Except.error _ => 0

/-! ### Definitions modelled from the spec text (for claim C2) -/

/-- Modelled from the spec (C2 sentence): a dilation whose output sample
is the plain maximum of `ridgeSum` over the centered flat window of width
`kernelSize` -- i.e. without the structure-value addition that
`scipy.ndimage.grey_dilation(..., structure=np.ones(k))` performs. -/
def specDilation (rs : List ℚ) (k : ℕ) : List ℚ :=
  (List.range rs.length).map (fun (i : ℕ) =>
    listMax ((List.range k).map (fun (j : ℕ) =>
      rs.getD (reflectIdx rs.length ((i : ℤ) + (j : ℤ) - ((k / 2 : ℕ) : ℤ))) 0)))

/-- Modelled from the spec (C2 sentence): the peak rule as claimed, with
`specDilation` in place of the code's dilation. -/
def specPeakIndices (rs : List ℚ) (k : ℕ) : List ℕ :=
  (List.range rs.length).filter (fun i =>
    decide (qabs (qsub ((specDilation rs k).getD i 0) (rs.getD i 0)) < 2) &&
    decide (listMean rs < rs.getD i 0))

/-! ### Bridge lemmas for the executable arithmetic -/

theorem qadd_eq (a b : ℚ) : qadd a b = a + b := by
  have ha : ((a.den : ℚ)) ≠ 0 := by
    exact_mod_cast a.den_ne_zero
  have hb : ((b.den : ℚ)) ≠ 0 := by
    exact_mod_cast b.den_ne_zero
  rw [qadd, Rat.mkRat_eq_div]
  conv_rhs => rw [← Rat.num_div_den a, ← Rat.num_div_den b, div_add_div _ _ ha hb]
  push_cast
  ring_nf

theorem qneg_eq (a : ℚ) : qneg a = -a := by
  rw [qneg, Rat.mkRat_eq_div]
  conv_rhs => rw [← Rat.num_div_den a]
  push_cast
  ring_nf

theorem qsub_eq (a b : ℚ) : qsub a b = a - b := by
  rw [qsub, qadd_eq, qneg_eq, sub_eq_add_neg]

theorem qmul_eq (a b : ℚ) : qmul a b = a * b := by
  have ha : ((a.den : ℚ)) ≠ 0 := by
    exact_mod_cast a.den_ne_zero
  have hb : ((b.den : ℚ)) ≠ 0 := by
    exact_mod_cast b.den_ne_zero
  rw [qmul, Rat.mkRat_eq_div]
  conv_rhs => rw [← Rat.num_div_den a, ← Rat.num_div_den b, div_mul_div_comm]
  push_cast
  ring_nf

theorem qinv_eq (a : ℚ) : qinv a = a⁻¹ := by
  rw [show a⁻¹ = Rat.inv a from rfl, Rat.inv_def, Rat.divInt_eq_div]
  rcases lt_trichotomy a.num 0 with h | h | h
  · have hq : ((a.num.natAbs : ℕ) : ℚ) = -(a.num : ℚ) := by
      rw [Int.cast_natAbs]
      exact_mod_cast abs_of_neg h
    rw [qinv, if_pos h, Rat.mkRat_eq_div, hq]
    push_cast
    exact neg_div_neg_eq _ _
  · rw [qinv, Rat.mkRat_eq_div]
    simp [h]
  · have hq : ((a.num.natAbs : ℕ) : ℚ) = (a.num : ℚ) := by
      rw [Int.cast_natAbs]
      exact_mod_cast abs_of_pos h
    rw [qinv, if_neg (by omega), Rat.mkRat_eq_div, hq]

theorem qdiv_eq (a b : ℚ) : qdiv a b = a / b := by
  rw [qdiv, qmul_eq, qinv_eq, div_eq_mul_inv]

theorem qofNat_eq (n : ℕ) : qofNat n = (n : ℚ) := by
  rw [qofNat, Rat.mkRat_eq_div]
  simp

theorem qsum_eq (l : List ℚ) : qsum l = l.sum := by
  induction l with
  | nil => rfl
  | cons x xs ih =>
      rw [qsum, List.foldr_cons, List.sum_cons, qadd_eq]
      rw [qsum] at ih
      rw [ih]

theorem qmax_eq (a b : ℚ) : qmax a b = max a b := by
  rw [qmax, max_def]

theorem qabs_eq (x : ℚ) : qabs x = |x| := by
  rw [qabs]
  by_cases h : x < 0
  · rw [if_pos h, qneg_eq, abs_of_neg h]
  · rw [if_neg h, abs_of_nonneg (not_lt.mp h)]

/-! ### Shape and value lemmas for the per-block pipeline -/

theorem zerosGrid_length (r c : ℕ) : (zerosGrid r c).length = r := by
  simp [zerosGrid]

theorem constGrid_length (r c : ℕ) (v : ℚ) : (constGrid r c v).length = r := by
  simp [constGrid]

theorem rowLen_zerosGrid (r c : ℕ) (hr : r ≠ 0) : rowLen (zerosGrid r c) = c := by
  cases r with
  | zero => exact absurd rfl hr
  | succ n => simp [zerosGrid, rowLen, List.replicate_succ]

theorem rowLen_constGrid (r c : ℕ) (v : ℚ) (hr : r ≠ 0) : rowLen (constGrid r c v) = c := by
  cases r with
  | zero => exact absurd rfl hr
  | succ n => simp [constGrid, rowLen, List.replicate_succ]

theorem freqFromPeaks_zeros_or_const (peaks : List ℕ) (r c : ℕ) (minW maxW : ℚ) :
    freqFromPeaks peaks r c minW maxW = zerosGrid r c ∨
    (2 ≤ peaks.length ∧ minW ≤ waveLen peaks ∧ waveLen peaks ≤ maxW ∧
      freqFromPeaks peaks r c minW maxW = constGrid r c (qdiv 1 (waveLen peaks))) := by
  rw [freqFromPeaks]
  by_cases h2 : peaks.length < 2
  · rw [if_pos h2]
    exact Or.inl rfl
  · rw [if_neg h2]
    by_cases hb : minW ≤ waveLen peaks ∧ waveLen peaks ≤ maxW
    · rw [if_pos hb]
      exact Or.inr ⟨by omega, hb.1, hb.2, rfl⟩
    · rw [if_neg hb]
      exact Or.inl rfl

theorem peakIndices_pairwise (rs : List ℚ) (k : ℕ) :
    (peakIndices rs k).Pairwise (· < ·) := by
  exact (List.pairwise_lt_range _).filter _

theorem getLastD_irrel {α : Type} (l : List α) (hl : l ≠ []) (d e : α) :
    l.getLastD d = l.getLastD e := by
  cases l with
  | nil => exact absurd rfl hl
  | cons a t => rw [List.getLastD_cons, List.getLastD_cons]

theorem pairwise_lt_head_last (l : List ℕ) (h : l.Pairwise (· < ·)) :
    l.headD 0 + (l.length - 1) ≤ l.getLastD 0 := by
  induction l with
  | nil => simp
  | cons a t ih =>
      cases t with
      | nil => simp
      | cons b t' =>
          have hab : a < b := (List.pairwise_cons.mp h).1 b (by simp)
          have ht : (b :: t').Pairwise (· < ·) := (List.pairwise_cons.mp h).2
          have := ih ht
          have hlast : (a :: b :: t').getLastD 0 = (b :: t').getLastD 0 := by
            rw [List.getLastD_cons]
            exact getLastD_irrel _ (by simp) a 0
          rw [hlast]
          simp only [List.headD_cons, List.length_cons] at this ⊢
          omega

theorem waveLen_eq (peaks : List ℕ) (h2 : 2 ≤ peaks.length) :
    waveLen peaks =
      (((peaks.getLastD 0 : ℕ) : ℚ) - ((peaks.headD 0 : ℕ) : ℚ)) / ((peaks.length : ℚ) - 1) := by
  rw [waveLen, Rat.mkRat_eq_div]
  push_cast [Nat.cast_sub (by omega : 1 ≤ peaks.length)]
  ring_nf

theorem waveLen_ge_one (peaks : List ℕ) (hp : peaks.Pairwise (· < ·))
    (h2 : 2 ≤ peaks.length) : 1 ≤ waveLen peaks := by
  have hlh := pairwise_lt_head_last peaks hp
  rw [waveLen_eq peaks h2]
  have hd : (0 : ℚ) < (peaks.length : ℚ) - 1 := by
    have : (2 : ℚ) ≤ (peaks.length : ℚ) := by exact_mod_cast h2
    linarith
  rw [le_div_iff₀ hd, one_mul]
  have : ((peaks.headD 0 : ℕ) : ℚ) + ((peaks.length : ℚ) - 1) ≤ ((peaks.getLastD 0 : ℕ) : ℚ) := by
    have hz : (peaks.headD 0 : ℤ) + ((peaks.length : ℤ) - 1) ≤ (peaks.getLastD 0 : ℤ) := by
      omega
    exact_mod_cast hz
  linarith

theorem frequest_cases (rot : RotFn) (im : Grid) (orientim : List ℝ) (k : ℕ) (minW maxW : ℚ) :
    frequest rot im orientim k minW maxW = zerosGrid im.length (rowLen im) ∨
    ∃ wl : ℚ, 1 ≤ wl ∧ minW ≤ wl ∧ wl ≤ maxW ∧
      frequest rot im orientim k minW maxW = constGrid im.length (rowLen im) (1 / wl) := by
  rw [frequest, frequestPost]
  rcases freqFromPeaks_zeros_or_const
      (peakIndices (colSum (slice2d (rot im (block_orient orientim / Real.pi * 180 + 90) 3 "nearest")
        (cropOffset im.length) (cropsze im.length) (cropOffset im.length) (cropsze im.length))) k)
      im.length (rowLen im) minW maxW with h | h
  · exact Or.inl h
  · refine Or.inr ⟨waveLen _, waveLen_ge_one _ (peakIndices_pairwise _ _) h.1, h.2.1, h.2.2.1, ?_⟩
    rw [h.2.2.2, qdiv_eq]

theorem frequest_length (rot : RotFn) (im : Grid) (orientim : List ℝ) (k : ℕ) (minW maxW : ℚ) :
    (frequest rot im orientim k minW maxW).length = im.length := by
  rcases frequest_cases rot im orientim k minW maxW with h | ⟨wl, _, _, _, h⟩
  · rw [h, zerosGrid_length]
  · rw [h, constGrid_length]

theorem frequest_rowLen (rot : RotFn) (im : Grid) (orientim : List ℝ) (k : ℕ) (minW maxW : ℚ) :
    rowLen (frequest rot im orientim k minW maxW) = rowLen im := by
  by_cases h0 : im.length = 0
  · have him : im = [] := List.length_eq_zero.mp h0
    rcases frequest_cases rot im orientim k minW maxW with h | ⟨wl, _, _, _, h⟩ <;>
      rw [h, him] <;> rfl
  · rcases frequest_cases rot im orientim k minW maxW with h | ⟨wl, _, _, _, h⟩
    · rw [h, rowLen_zerosGrid _ _ h0]
    · rw [h, rowLen_constGrid _ _ _ h0]

/-- Unfolding of `frequest` into its post-rotation pipeline. -/
theorem frequest_def_post (rot : RotFn) (im : Grid) (orientim : List ℝ)
    (k : ℕ) (minW maxW : ℚ) :
    frequest rot im orientim k minW maxW =
      freqFromPeaks (peakIndices (colSum (slice2d
        (rot im (block_orient orientim / Real.pi * 180 + 90) 3 "nearest")
        (cropOffset im.length) (cropsze im.length) (cropOffset im.length) (cropsze im.length))) k)
      im.length (rowLen im) minW maxW := rfl

/-- C8: `frequest` is total (embedded as a total function; numpy raises no
exception on the modelled paths), the returned patch has the block's
dimensions, and its values are all zero or one single constant positive
frequency; degenerate cases (fewer than 2 peaks, empty block, out-of-range
wavelength) all fall into the all-zero disjunct. -/
theorem frequest_total_shape_values (rot : RotFn) (im : Grid) (orientim : List ℝ)
    (k : ℕ) (minW maxW : ℚ) :
    (frequest rot im orientim k minW maxW).length = im.length ∧
    rowLen (frequest rot im orientim k minW maxW) = rowLen im ∧
    (frequest rot im orientim k minW maxW = zerosGrid im.length (rowLen im) ∨
      ∃ wl : ℚ, 1 ≤ wl ∧ 0 < 1 / wl ∧
        frequest rot im orientim k minW maxW = constGrid im.length (rowLen im) (1 / wl)) := by
  refine ⟨frequest_length rot im orientim k minW maxW,
    frequest_rowLen rot im orientim k minW maxW, ?_⟩
  rcases frequest_cases rot im orientim k minW maxW with h | ⟨wl, h1, _, _, h⟩
  · exact Or.inl h
  · exact Or.inr ⟨wl, h1, one_div_pos.mpr (lt_of_lt_of_le one_pos h1), h⟩

/-- C1: with `0 < minWaveLength ≤ maxWaveLength`, `frequest` returns an
all-zero patch of the block's shape when fewer than 2 peaks are detected;
otherwise it computes `wavelength = (lastPeak - firstPeak)/(numPeaks - 1)`
and returns the constant patch `1/wavelength` exactly when
`minWaveLength ≤ wavelength ≤ maxWaveLength`, an all-zero patch
otherwise. -/
theorem frequest_wavelength_branches (rot : RotFn) (im : Grid) (orientim : List ℝ)
    (k : ℕ) (minW maxW : ℚ) (peaks : List ℕ)
    (hmin : 0 < minW) (hminmax : minW ≤ maxW)
    (hp : peaks = peakIndices (colSum (slice2d
        (rot im (block_orient orientim / Real.pi * 180 + 90) 3 "nearest")
        (cropOffset im.length) (cropsze im.length) (cropOffset im.length) (cropsze im.length))) k) :
    (peaks.length < 2 → frequest rot im orientim k minW maxW = zerosGrid im.length (rowLen im)) ∧
    (2 ≤ peaks.length →
      waveLen peaks =
        (((peaks.getLastD 0 : ℕ) : ℚ) - ((peaks.headD 0 : ℕ) : ℚ)) / ((peaks.length : ℚ) - 1) ∧
      (minW ≤ waveLen peaks ∧ waveLen peaks ≤ maxW →
        frequest rot im orientim k minW maxW = constGrid im.length (rowLen im) (1 / waveLen peaks)) ∧
      (¬ (minW ≤ waveLen peaks ∧ waveLen peaks ≤ maxW) →
        frequest rot im orientim k minW maxW = zerosGrid im.length (rowLen im))) := by
  rw [frequest_def_post, ← hp]
  refine ⟨?_, ?_⟩
  · intro h2
    rw [freqFromPeaks, if_pos h2]
  · intro h2
    refine ⟨waveLen_eq peaks h2, ?_, ?_⟩
    · intro hb
      rw [freqFromPeaks, if_neg (by omega), if_pos hb, qdiv_eq]
    · intro hb
      rw [freqFromPeaks, if_neg (by omega), if_neg hb]

theorem largestLe_le (p : ℕ → Bool) (n : ℕ) : largestLe p n ≤ n := by
  induction n with
  | zero => exact le_refl 0
  | succ m ih =>
      rw [largestLe]
      split
      · exact le_refl _
      · exact Nat.le_succ_of_le ih

theorem largestLe_prop (p : ℕ → Bool) (h0 : p 0 = true) (n : ℕ) :
    p (largestLe p n) = true := by
  induction n with
  | zero => exact h0
  | succ m ih =>
      rw [largestLe]
      split
      · assumption
      · exact ih

theorem le_largestLe (p : ℕ → Bool) (m n : ℕ) (hm : m ≤ n) (hpm : p m = true) :
    m ≤ largestLe p n := by
  induction n with
  | zero =>
      have : m = 0 := Nat.le_zero.mp hm
      rw [this]
      exact Nat.zero_le _
  | succ t ih =>
      rw [largestLe]
      split
      · exact hm
      · by_cases hmt : m ≤ t
        · exact ih hmt
        · have hmeq : m = t + 1 := by omega
          rw [hmeq] at hpm
          simp_all

theorem cropsze_spec (n : ℕ) : 2 * (cropsze n) ^ 2 ≤ n ^ 2 := by
  have h := largestLe_prop (fun m => decide (2 * m ^ 2 ≤ n ^ 2)) (by simp) n
  simpa using h

theorem le_cropsze (n m : ℕ) (h : 2 * m ^ 2 ≤ n ^ 2) : m ≤ cropsze n := by
  have hm : m ≤ n := by
    by_contra hc
    push_neg at hc
    have := Nat.pow_lt_pow_left hc (by norm_num : 2 ≠ 0)
    omega
  exact le_largestLe _ m n hm (by simpa using h)

/-- The value `cropsze rows` is exactly `⌊rows / √2⌋`, the crop size
`int(np.fix(rows/np.sqrt(2)))` of the source. -/
theorem cropsze_eq_floor (n : ℕ) : cropsze n = Nat.floor ((n : ℝ) / Real.sqrt 2) := by
  have h2 : (0 : ℝ) < Real.sqrt 2 := Real.sqrt_pos.mpr (by norm_num)
  have hs : Real.sqrt 2 ^ 2 = 2 := Real.sq_sqrt (by norm_num)
  apply le_antisymm
  · apply Nat.le_floor
    rw [le_div_iff₀ h2]
    have hc := cropsze_spec n
    have hcast : (2 : ℝ) * ((cropsze n : ℕ) : ℝ) ^ 2 ≤ ((n : ℕ) : ℝ) ^ 2 := by
      exact_mod_cast hc
    nlinarith [Real.sqrt_nonneg 2, Nat.cast_nonneg (α := ℝ) (cropsze n),
      Nat.cast_nonneg (α := ℝ) n]
  · apply le_cropsze
    have hf : ((Nat.floor ((n : ℝ) / Real.sqrt 2) : ℕ) : ℝ) ≤ (n : ℝ) / Real.sqrt 2 :=
      Nat.floor_le (by positivity)
    rw [le_div_iff₀ h2] at hf
    have hsq : (2 : ℝ) * ((Nat.floor ((n : ℝ) / Real.sqrt 2) : ℕ) : ℝ) ^ 2 ≤ ((n : ℕ) : ℝ) ^ 2 := by
      have hprod := mul_self_le_mul_self
        (mul_nonneg (Nat.cast_nonneg (α := ℝ) (Nat.floor ((n : ℝ) / Real.sqrt 2)))
          (Real.sqrt_nonneg 2)) hf
      nlinarith [hprod, hs]
    exact_mod_cast hsq

/-- C6: `frequest` computes the block orientation as
`atan2(mean(sin 2θ), mean(cos 2θ))/2`, passes the rotation primitive the
angle `θ·180/π + 90` in degrees together with spline order `3` (cubic)
and boundary mode `"nearest"` (edge clamping), and crops the rotated grid
to the centered square of side `⌊rows/√2⌋` at offset
`⌊(rows − cropSize)/2⌋` on each axis. -/
theorem frequest_rotation_and_crop (rot : RotFn) (im : Grid) (orientim : List ℝ)
    (k : ℕ) (minW maxW : ℚ) :
    cropsze im.length = Nat.floor ((im.length : ℝ) / Real.sqrt 2) ∧
    cropOffset im.length = (im.length - cropsze im.length) / 2 ∧
    frequest rot im orientim k minW maxW =
      freqFromPeaks (peakIndices (colSum (slice2d
          (rot im (atan2 (listMeanR (orientim.map (fun t => Real.sin (2 * t))))
                         (listMeanR (orientim.map (fun t => Real.cos (2 * t)))) / 2
                   / Real.pi * 180 + 90)
          3 "nearest")
          (cropOffset im.length) (cropsze im.length) (cropOffset im.length) (cropsze im.length))) k)
        im.length (rowLen im) minW maxW :=
  ⟨cropsze_eq_floor im.length, rfl, rfl⟩

/-- Witness for C1 at a concrete input (`rotId`, a 1×1 block, `k = 3`,
wavelength window `[1, 5]`; the pipeline finds no peaks). -/
theorem frequest_wavelength_branches_witness :
    (0 : ℚ) < 1 ∧ (1 : ℚ) ≤ 5 ∧
    (([] : List ℕ) = peakIndices (colSum (slice2d
        (rotId [[1]] (block_orient [(0 : ℝ)] / Real.pi * 180 + 90) 3 "nearest")
        (cropOffset 1) (cropsze 1) (cropOffset 1) (cropsze 1))) 3) ∧
    ((([] : List ℕ).length < 2 → frequest rotId [[1]] [(0 : ℝ)] 3 1 5 = zerosGrid 1 1) ∧
     (2 ≤ ([] : List ℕ).length →
       waveLen [] =
         (((List.getLastD ([] : List ℕ) 0 : ℕ) : ℚ) - ((List.headD ([] : List ℕ) 0 : ℕ) : ℚ)) /
           ((List.length ([] : List ℕ) : ℚ) - 1) ∧
       ((1 : ℚ) ≤ waveLen [] ∧ waveLen [] ≤ 5 →
         frequest rotId [[1]] [(0 : ℝ)] 3 1 5 = constGrid 1 1 (1 / waveLen [])) ∧
       (¬ ((1 : ℚ) ≤ waveLen [] ∧ waveLen [] ≤ 5) →
         frequest rotId [[1]] [(0 : ℝ)] 3 1 5 = zerosGrid 1 1))) :=
  ⟨by decide, by decide, by decide,
    frequest_wavelength_branches rotId [[1]] [(0 : ℝ)] 3 1 5 []
      (by decide) (by decide) (by decide)⟩

/-! ### C2: the dilation is not the flat window maximum -/

/-- C2 counterexample: for the block whose cropped projection is
`[24, 25, 0, 0]` (realised by an explicit 6×6 block through the actual
pipeline), the code's dilation differs from the claimed flat window
maximum, and the collected peak set differs too: the code collects `[1]`
while the claimed rule collects `[0, 1]`. -/
theorem dilation_not_flat_window_max :
    (([24, 25, 0, 0] : List ℚ) = colSum (slice2d
        (rotId [[0,0,0,0,0,0],[0,24,25,0,0,0],[0,0,0,0,0,0],[0,0,0,0,0,0],[0,0,0,0,0,0],[0,0,0,0,0,0]]
          (block_orient [(0 : ℝ)] / Real.pi * 180 + 90) 3 "nearest")
        (cropOffset 6) (cropsze 6) (cropOffset 6) (cropsze 6))) ∧
    greyDilation [24, 25, 0, 0] 3 ≠ specDilation [24, 25, 0, 0] 3 ∧
    peakIndices [24, 25, 0, 0] 3 = [1] ∧
    specPeakIndices [24, 25, 0, 0] 3 = [0, 1] :=
  ⟨by decide, by decide, by decide, by decide⟩

theorem foldl_qmax_map_qadd_one (xs : List ℚ) (a : ℚ) :
    (xs.map (fun x => qadd x 1)).foldl qmax (qadd a 1) = qadd (xs.foldl qmax a) 1 := by
  induction xs generalizing a with
  | nil => rfl
  | cons x xs ih =>
      simp only [List.map_cons, List.foldl_cons]
      rw [show qmax (qadd a 1) (qadd x 1) = qadd (qmax a x) 1 by
        rw [qmax_eq, qmax_eq, qadd_eq, qadd_eq, qadd_eq]
        exact max_add_add_right a x 1]
      exact ih (qmax a x)

theorem listMax_map_qadd_one (l : List ℚ) (hl : l ≠ []) :
    listMax (l.map (fun x => qadd x 1)) = qadd (listMax l) 1 := by
  cases l with
  | nil => exact absurd rfl hl
  | cons x xs =>
      simp only [List.map_cons, listMax]
      exact foldl_qmax_map_qadd_one xs x

theorem getD_map_range (n : ℕ) (f : ℕ → ℚ) (i : ℕ) (hi : i < n) (d : ℚ) :
    ((List.range n).map f).getD i d = f i := by
  rw [List.getD_eq_getElem?_getD, List.getElem?_map, List.getElem?_range hi]
  rfl

theorem reflectIdx_self (n i : ℕ) (hi : i < n) : reflectIdx n (i : ℤ) = i := by
  rw [reflectIdx, if_neg (by omega)]
  have hlt : (i : ℤ) < 2 * (n : ℤ) := by exact_mod_cast (by omega : i < 2 * n)
  have h1 : ((i : ℤ) % (2 * (n : ℤ))).toNat = i := by
    rw [Int.emod_eq_of_lt (by exact_mod_cast Nat.zero_le i) hlt]
    rfl
  show (if (((i : ℤ) % (2 * (n : ℤ))).toNat) < n then (((i : ℤ) % (2 * (n : ℤ))).toNat)
       else 2 * n - 1 - (((i : ℤ) % (2 * (n : ℤ))).toNat)) = i
  rw [h1, if_pos hi]

theorem le_foldl_qmax (t : List ℚ) :
    ∀ a, a ≤ t.foldl qmax a ∧ ∀ x ∈ t, x ≤ t.foldl qmax a := by
  induction t with
  | nil =>
      intro a
      exact ⟨le_refl a, by simp⟩
  | cons b t' ih =>
      intro a
      have hab : a ≤ qmax a b := by rw [qmax_eq]; exact le_max_left a b
      have hbb : b ≤ qmax a b := by rw [qmax_eq]; exact le_max_right a b
      constructor
      · exact le_trans hab (ih (qmax a b)).1
      · intro x hx
        rcases List.mem_cons.mp hx with hx | hx
        · rw [hx]
          exact le_trans hbb (ih (qmax a b)).1
        · exact (ih (qmax a b)).2 x hx

theorem mem_le_listMax (l : List ℚ) (x : ℚ) (hx : x ∈ l) : x ≤ listMax l := by
  cases l with
  | nil => simp at hx
  | cons a t =>
      rcases List.mem_cons.mp hx with hx | hx
      · rw [hx, listMax]
        exact (le_foldl_qmax t a).1
      · rw [listMax]
        exact (le_foldl_qmax t a).2 x hx

theorem specDilation_getD (rs : List ℚ) (k i : ℕ) (hi : i < rs.length) :
    (specDilation rs k).getD i 0 =
      listMax ((List.range k).map (fun (j : ℕ) =>
        rs.getD (reflectIdx rs.length ((i : ℤ) + (j : ℤ) - ((k / 2 : ℕ) : ℤ))) 0)) :=
  getD_map_range _ _ i hi 0

theorem greyDilation_getD (rs : List ℚ) (k i : ℕ) (hk1 : 1 ≤ k) (hi : i < rs.length) :
    (greyDilation rs k).getD i 0 = qadd ((specDilation rs k).getD i 0) 1 := by
  rw [greyDilation, getD_map_range _ _ i hi, specDilation_getD rs k i hi]
  rw [show (List.range k).map (fun (j : ℕ) =>
        qadd (rs.getD (reflectIdx rs.length ((i : ℤ) + (j : ℤ) - ((k / 2 : ℕ) : ℤ))) 0) 1) =
      ((List.range k).map (fun (j : ℕ) =>
        rs.getD (reflectIdx rs.length ((i : ℤ) + (j : ℤ) - ((k / 2 : ℕ) : ℤ))) 0)).map
        (fun x => qadd x 1) from by rw [List.map_map]; rfl]
  apply listMax_map_qadd_one
  apply List.ne_nil_of_length_pos
  rw [List.length_map, List.length_range]
  omega

theorem specDilation_ge_self (rs : List ℚ) (k i : ℕ) (hk1 : 1 ≤ k) (hi : i < rs.length) :
    rs.getD i 0 ≤ (specDilation rs k).getD i 0 := by
  rw [specDilation_getD rs k i hi]
  apply mem_le_listMax
  refine List.mem_map.mpr ⟨k / 2, List.mem_range.mpr (Nat.div_lt_self (by omega) one_lt_two), ?_⟩
  have harg : (i : ℤ) + ((k / 2 : ℕ) : ℤ) - ((k / 2 : ℕ) : ℤ) = (i : ℤ) := by ring
  rw [harg, reflectIdx_self rs.length i hi]

/-- C2 corrected: inside `frequest`, with `ridgeSum` the column-wise sum
of the cropped rotated block and `kernelSize` odd, the code's dilation is
`1 +` the centered flat window maximum (the all-ones structuring element
adds its height), so an index is collected as a peak if and only if
`windowMax[i] < ridgeSum[i] + 1` and `ridgeSum[i] > mean(ridgeSum)`; the
indices come out in ascending order. -/
theorem peak_rule_amended (rot : RotFn) (im : Grid) (orientim : List ℝ)
    (k : ℕ) (hk : k % 2 = 1) (rs : List ℚ)
    (hrs : rs = colSum (slice2d
        (rot im (block_orient orientim / Real.pi * 180 + 90) 3 "nearest")
        (cropOffset im.length) (cropsze im.length) (cropOffset im.length) (cropsze im.length))) :
    greyDilation rs k = (specDilation rs k).map (fun x => qadd x 1) ∧
    peakIndices rs k = (List.range rs.length).filter (fun i =>
      decide ((specDilation rs k).getD i 0 < rs.getD i 0 + 1) &&
      decide (listMean rs < rs.getD i 0)) ∧
    (peakIndices rs k).Pairwise (· < ·) := by
  have hk1 : 1 ≤ k := by omega
  refine ⟨?_, ?_, peakIndices_pairwise rs k⟩
  · apply List.ext_getElem
    · simp [greyDilation, specDilation]
    · intro i h1 h2
      have hi : i < rs.length := by simpa [greyDilation] using h1
      have h3 : i < (specDilation rs k).length := by simpa [specDilation] using hi
      rw [List.getElem_map]
      rw [← List.getD_eq_getElem (greyDilation rs k) 0 h1,
        ← List.getD_eq_getElem (specDilation rs k) 0 h3]
      exact greyDilation_getD rs k i hk1 hi
  · rw [peakIndices]
    apply List.filter_congr
    intro i hi0
    have hi : i < rs.length := List.mem_range.mp hi0
    have heq : (qabs (qsub ((greyDilation rs k).getD i 0) (rs.getD i 0)) < 2) ↔
        ((specDilation rs k).getD i 0 < rs.getD i 0 + 1) := by
      rw [greyDilation_getD rs k i hk1 hi, qabs_eq, qsub_eq, qadd_eq]
      have hge := specDilation_ge_self rs k i hk1 hi
      rw [abs_lt]
      constructor
      · rintro ⟨h1, h2⟩
        linarith
      · intro h1
        constructor <;> linarith
    rw [decide_eq_decide.mpr heq]

/-- Witness for the amended C2 at the concrete 6×6 block realising
`ridgeSum = [24, 25, 0, 0]`. -/
theorem peak_rule_amended_witness :
    3 % 2 = 1 ∧
    (([24, 25, 0, 0] : List ℚ) = colSum (slice2d
        (rotId [[0,0,0,0,0,0],[0,24,25,0,0,0],[0,0,0,0,0,0],[0,0,0,0,0,0],[0,0,0,0,0,0],[0,0,0,0,0,0]]
          (block_orient [(0 : ℝ)] / Real.pi * 180 + 90) 3 "nearest")
        (cropOffset 6) (cropsze 6) (cropOffset 6) (cropsze 6))) ∧
    (greyDilation [24, 25, 0, 0] 3 = (specDilation [24, 25, 0, 0] 3).map (fun x => qadd x 1) ∧
     peakIndices [24, 25, 0, 0] 3 =
       (List.range (List.length ([24, 25, 0, 0] : List ℚ))).filter (fun i =>
         decide ((specDilation [24, 25, 0, 0] 3).getD i 0 < ([24, 25, 0, 0] : List ℚ).getD i 0 + 1) &&
         decide (listMean [24, 25, 0, 0] < ([24, 25, 0, 0] : List ℚ).getD i 0)) ∧
     (peakIndices [24, 25, 0, 0] 3).Pairwise (· < ·)) :=
  ⟨by decide, by decide,
    peak_rule_amended rotId
      [[0,0,0,0,0,0],[0,24,25,0,0,0],[0,0,0,0,0,0],[0,0,0,0,0,0],[0,0,0,0,0,0],[0,0,0,0,0,0]]
      [(0 : ℝ)] 3 (by decide) [24, 25, 0, 0] (by decide)⟩

/-! ### Geometry of the block loop -/

theorem slice2d_length (g : Grid) (r0 h c0 w : ℕ) (hr : r0 + h ≤ g.length) :
    (slice2d g r0 h c0 w).length = h := by
  simp only [slice2d, List.length_map, List.length_take, List.length_drop]
  omega

theorem slice2d_length_le (g : Grid) (r0 h c0 w : ℕ) :
    (slice2d g r0 h c0 w).length ≤ h := by
  simp only [slice2d, List.length_map, List.length_take, List.length_drop]
  omega

theorem headD_eq_getElem (l : List (List ℚ)) (h : 0 < l.length) : l.headD [] = l[0] := by
  cases l with
  | nil => simp at h
  | cons a t => rfl

theorem rowLen_slice2d_le (g : Grid) (r0 h c0 w : ℕ) :
    rowLen (slice2d g r0 h c0 w) ≤ w := by
  simp only [slice2d, rowLen]
  cases hgl : (g.drop r0).take h with
  | nil => simp
  | cons a t =>
      simp only [List.map_cons, List.headD_cons, List.length_take]
      omega

theorem rowLen_slice2d (g : Grid) (r0 h c0 w : ℕ)
    (hrect : ∀ row ∈ g, row.length = rowLen g)
    (hr : r0 < g.length) (h1 : 1 ≤ h) (hw : c0 + w ≤ rowLen g) :
    rowLen (slice2d g r0 h c0 w) = w := by
  obtain ⟨h2, rfl⟩ : ∃ h2, h = h2 + 1 := ⟨h - 1, by omega⟩
  have hd : 0 < (g.drop r0).length := by
    rw [List.length_drop]
    omega
  obtain ⟨a, t, hat⟩ : ∃ a t, g.drop r0 = a :: t := by
    cases hdl : g.drop r0 with
    | nil =>
        rw [hdl] at hd
        simp at hd
    | cons a t => exact ⟨a, t, rfl⟩
  have hmem : a ∈ g := List.drop_subset r0 g (by rw [hat]; exact List.mem_cons_self a t)
  rw [slice2d, hat]
  simp only [List.take_succ_cons, List.map_cons, rowLen, List.headD_cons,
    List.length_take, List.length_drop]
  have := hrect a hmem
  omega

/-- Dimensions of the patch written for the block at `(row, col)`. -/
theorem patch_dims (rot : RotFn) (im : Grid) (th : ℝ) (bs k : ℕ) (minW maxW : ℚ)
    (row col : ℕ) (hrect : ∀ r ∈ im, r.length = rowLen im)
    (hbs : 1 ≤ bs) (hrow : row + bs ≤ im.length) (hcol : col + bs ≤ rowLen im) :
    (frequest rot (slice2d im row bs col bs) [th] k minW maxW).length = bs ∧
    rowLen (frequest rot (slice2d im row bs col bs) [th] k minW maxW) = bs := by
  constructor
  · rw [frequest_length]
    exact slice2d_length im row bs col bs hrow
  · rw [frequest_rowLen]
    exact rowLen_slice2d im row bs col bs hrect (by omega) hbs hcol

theorem patch_dims_le (rot : RotFn) (im : Grid) (th : ℝ) (bs k : ℕ) (minW maxW : ℚ)
    (row col : ℕ) :
    (frequest rot (slice2d im row bs col bs) [th] k minW maxW).length ≤ bs ∧
    rowLen (frequest rot (slice2d im row bs col bs) [th] k minW maxW) ≤ bs := by
  constructor
  · rw [frequest_length]
    exact slice2d_length_le im row bs col bs
  · rw [frequest_rowLen]
    exact rowLen_slice2d_le im row bs col bs

theorem writePatch_out_row (f : ℕ → ℕ → ℚ) (r0 c0 : ℕ) (p : Grid) (i j : ℕ)
    (h : i < r0 ∨ r0 + p.length ≤ i) : writePatch f r0 c0 p i j = f i j := by
  rw [writePatch, if_neg]
  rintro ⟨h1, h2, h3, h4⟩
  omega

theorem writePatch_out_col (f : ℕ → ℕ → ℚ) (r0 c0 : ℕ) (p : Grid) (i j : ℕ)
    (h : j < c0 ∨ c0 + rowLen p ≤ j) : writePatch f r0 c0 p i j = f i j := by
  rw [writePatch, if_neg]
  rintro ⟨h1, h2, h3, h4⟩
  omega

theorem writePatch_in (f : ℕ → ℕ → ℚ) (r0 c0 : ℕ) (p : Grid) (i j : ℕ)
    (h1 : r0 ≤ i) (h2 : i < r0 + p.length) (h3 : c0 ≤ j) (h4 : j < c0 + rowLen p) :
    writePatch f r0 c0 p i j = (p.getD (i - r0) []).getD (j - c0) 0 := by
  rw [writePatch, if_pos ⟨h1, h2, h3, h4⟩]

theorem mem_pyrange {stop step a : ℕ} :
    a ∈ pyrange stop step ↔ ∃ m, m < (stop + step - 1) / step ∧ a = m * step := by
  simp only [pyrange, List.mem_map, List.mem_range]
  constructor
  · rintro ⟨m, hm, rfl⟩
    exact ⟨m, hm, rfl⟩
  · rintro ⟨m, hm, rfl⟩
    exact ⟨m, hm, rfl⟩

theorem pyrange_count (rows bs : ℕ) (hbs : 1 ≤ bs) :
    (rows - bs + bs - 1) / bs = (rows - 1) / bs := by
  rcases le_or_lt bs rows with h | h
  · have heq : rows - bs + bs - 1 = rows - 1 := by omega
    rw [heq]
  · have h0 : rows - bs = 0 := by omega
    rw [h0]
    have h1 : (0 + bs - 1) / bs = 0 := Nat.div_eq_of_lt (by omega)
    have h2 : (rows - 1) / bs = 0 := Nat.div_eq_of_lt (by omega)
    rw [h1, h2]

theorem pyrange_sep (stop step : ℕ) :
    (pyrange stop step).Pairwise (fun a b => a + step ≤ b) := by
  rw [pyrange, List.pairwise_map]
  apply List.Pairwise.imp ?_ (List.pairwise_lt_range _)
  intro a b hab
  have h2 : (a + 1) * step ≤ b * step := Nat.mul_le_mul_right step (by omega)
  rw [Nat.succ_mul] at h2
  exact h2

theorem pyrange_le (rows bs a : ℕ) (hbs : 1 ≤ bs) (ha : a ∈ pyrange (rows - bs) bs) :
    a + bs ≤ bs * ((rows - 1) / bs) := by
  rcases mem_pyrange.mp ha with ⟨m, hm, rfl⟩
  rw [pyrange_count rows bs hbs] at hm
  have h2 : (m + 1) * bs ≤ ((rows - 1) / bs) * bs := Nat.mul_le_mul_right bs (by omega)
  rw [Nat.succ_mul] at h2
  rw [Nat.mul_comm bs ((rows - 1) / bs)]
  omega

theorem pyrange_bound (rows bs a : ℕ) (hbs : 1 ≤ bs) (ha : a ∈ pyrange (rows - bs) bs) :
    a + bs ≤ rows := by
  have h1 := pyrange_le rows bs a hbs ha
  have h2 : bs * ((rows - 1) / bs) ≤ rows - 1 := by
    rw [Nat.mul_comm]
    exact Nat.div_mul_le_self _ _
  omega

/-! ### Loop coverage lemmas -/

section LoopLemmas

variable (rot : RotFn) (im : Grid) (orient : List (List ℝ)) (bs k : ℕ) (minW maxW : ℚ)

theorem colPass_untouched_row (row : ℕ) (cs : List ℕ) (f g : ℕ → ℕ → ℚ) (i j : ℕ)
    (hok : colPass rot im orient bs k minW maxW row cs f = Except.ok g)
    (hi : i < row ∨ row + bs ≤ i) : g i j = f i j := by
  induction cs generalizing f with
  | nil =>
      simp only [colPass] at hok
      cases hok
      rfl
  | cons c cs' ih =>
      simp only [colPass] at hok
      cases horient : orientAt orient (row / bs) (c / bs) with
      | none =>
          rw [horient] at hok
          cases hok
      | some th =>
          rw [horient] at hok
          have hgf := ih (writePatch f row c (frequest rot (slice2d im row bs c bs) [th] k minW maxW)) hok
          rw [hgf]
          apply writePatch_out_row
          rcases hi with h | h
          · exact Or.inl h
          · have hple := (patch_dims_le rot im th bs k minW maxW row c).1
            omega

theorem colPass_untouched_col (row : ℕ) (cs : List ℕ) (f g : ℕ → ℕ → ℚ) (i j : ℕ)
    (hok : colPass rot im orient bs k minW maxW row cs f = Except.ok g)
    (hj : ∀ c ∈ cs, j < c ∨ c + bs ≤ j) : g i j = f i j := by
  induction cs generalizing f with
  | nil =>
      simp only [colPass] at hok
      cases hok
      rfl
  | cons c cs' ih =>
      simp only [colPass] at hok
      cases horient : orientAt orient (row / bs) (c / bs) with
      | none =>
          rw [horient] at hok
          cases hok
      | some th =>
          rw [horient] at hok
          have hgf := ih _ hok (fun c' hc' => hj c' (List.mem_cons_of_mem c hc'))
          rw [hgf]
          apply writePatch_out_col
          rcases hj c (by simp) with h | h
          · exact Or.inl h
          · have hple := (patch_dims_le rot im th bs k minW maxW row c).2
            omega

theorem colPass_value (row : ℕ) (cs : List ℕ) (f g : ℕ → ℕ → ℚ)
    (hrect : ∀ r ∈ im, r.length = rowLen im) (hbs : 1 ≤ bs)
    (hrow : row + bs ≤ im.length)
    (c i j : ℕ) (hi1 : row ≤ i) (hi2 : i < row + bs) (hj1 : c ≤ j) (hj2 : j < c + bs)
    (hcs : ∀ x ∈ cs, x + bs ≤ rowLen im)
    (hsep : cs.Pairwise (fun a b => a + bs ≤ b))
    (hc : c ∈ cs)
    (hok : colPass rot im orient bs k minW maxW row cs f = Except.ok g) :
    ∃ th, orientAt orient (row / bs) (c / bs) = some th ∧
      g i j = ((frequest rot (slice2d im row bs c bs) [th] k minW maxW).getD (i - row) []).getD
        (j - c) 0 := by
  induction cs generalizing f with
  | nil => simp at hc
  | cons c0 cs' ih =>
      simp only [colPass] at hok
      cases horient : orientAt orient (row / bs) (c0 / bs) with
      | none =>
          rw [horient] at hok
          cases hok
      | some th =>
          rw [horient] at hok
          rcases List.mem_cons.mp hc with rfl | hc'
          · refine ⟨th, horient, ?_⟩
            have huntouched := colPass_untouched_col rot im orient bs k minW maxW row cs' _ g i j hok ?_
            · rw [huntouched]
              have hd := patch_dims rot im th bs k minW maxW row c hrect hbs hrow (hcs c (by simp))
              rw [writePatch_in _ _ _ _ _ _ hi1 (by omega) hj1 (by omega)]
            · intro c' hc'
              have hsep0 := (List.pairwise_cons.mp hsep).1 c' hc'
              omega
          · exact ih _ (fun x hx => hcs x (List.mem_cons_of_mem c0 hx))
              (List.pairwise_cons.mp hsep).2 hc' hok

theorem colPass_orient (row : ℕ) (cs : List ℕ) (f g : ℕ → ℕ → ℚ) (c : ℕ)
    (hc : c ∈ cs)
    (hok : colPass rot im orient bs k minW maxW row cs f = Except.ok g) :
    ∃ th, orientAt orient (row / bs) (c / bs) = some th := by
  induction cs generalizing f with
  | nil => simp at hc
  | cons c0 cs' ih =>
      simp only [colPass] at hok
      cases horient : orientAt orient (row / bs) (c0 / bs) with
      | none =>
          rw [horient] at hok
          cases hok
      | some th =>
          rw [horient] at hok
          rcases List.mem_cons.mp hc with rfl | hc'
          · exact ⟨th, horient⟩
          · exact ih _ hc' hok

theorem rowPass_untouched_row (rs : List ℕ) (f g : ℕ → ℕ → ℚ) (i j : ℕ)
    (hok : rowPass rot im orient bs k minW maxW rs f = Except.ok g)
    (hi : ∀ r ∈ rs, i < r ∨ r + bs ≤ i) : g i j = f i j := by
  induction rs generalizing f with
  | nil =>
      simp only [rowPass] at hok
      cases hok
      rfl
  | cons r rs' ih =>
      simp only [rowPass] at hok
      cases hcol : colPass rot im orient bs k minW maxW r (pyrange (rowLen im - bs) bs) f with
      | error e =>
          rw [hcol] at hok
          cases hok
      | ok g0 =>
          rw [hcol] at hok
          have h1 := ih _ hok (fun r' hr' => hi r' (List.mem_cons_of_mem r hr'))
          rw [h1]
          exact colPass_untouched_row rot im orient bs k minW maxW r _ f g0 i j hcol (hi r (by simp))

theorem rowPass_untouched_col (rs : List ℕ) (f g : ℕ → ℕ → ℚ) (i j : ℕ)
    (hok : rowPass rot im orient bs k minW maxW rs f = Except.ok g)
    (hj : ∀ c ∈ pyrange (rowLen im - bs) bs, j < c ∨ c + bs ≤ j) : g i j = f i j := by
  induction rs generalizing f with
  | nil =>
      simp only [rowPass] at hok
      cases hok
      rfl
  | cons r rs' ih =>
      simp only [rowPass] at hok
      cases hcol : colPass rot im orient bs k minW maxW r (pyrange (rowLen im - bs) bs) f with
      | error e =>
          rw [hcol] at hok
          cases hok
      | ok g0 =>
          rw [hcol] at hok
          have h1 := ih _ hok
          rw [h1]
          exact colPass_untouched_col rot im orient bs k minW maxW r _ f g0 i j hcol hj

theorem rowPass_value (rs : List ℕ) (f g : ℕ → ℕ → ℚ)
    (hrect : ∀ r ∈ im, r.length = rowLen im) (hbs : 1 ≤ bs)
    (r c i j : ℕ) (hi1 : r ≤ i) (hi2 : i < r + bs) (hj1 : c ≤ j) (hj2 : j < c + bs)
    (hc : c ∈ pyrange (rowLen im - bs) bs)
    (hrs : ∀ x ∈ rs, x + bs ≤ im.length)
    (hsep : rs.Pairwise (fun a b => a + bs ≤ b))
    (hr : r ∈ rs)
    (hok : rowPass rot im orient bs k minW maxW rs f = Except.ok g) :
    ∃ th, orientAt orient (r / bs) (c / bs) = some th ∧
      g i j = ((frequest rot (slice2d im r bs c bs) [th] k minW maxW).getD (i - r) []).getD
        (j - c) 0 := by
  induction rs generalizing f with
  | nil => simp at hr
  | cons r0 rs' ih =>
      simp only [rowPass] at hok
      cases hcol : colPass rot im orient bs k minW maxW r0 (pyrange (rowLen im - bs) bs) f with
      | error e =>
          rw [hcol] at hok
          cases hok
      | ok g0 =>
          rw [hcol] at hok
          rcases List.mem_cons.mp hr with rfl | hr'
          · have huntouched : g i j = g0 i j := by
              apply rowPass_untouched_row rot im orient bs k minW maxW rs' g0 g i j hok
              intro r' hr'
              have hsep0 := (List.pairwise_cons.mp hsep).1 r' hr'
              omega
            rw [huntouched]
            exact colPass_value rot im orient bs k minW maxW r _ f g0 hrect hbs
              (hrs r (by simp)) c i j hi1 hi2 hj1 hj2
              (fun x hx => pyrange_bound (rowLen im) bs x hbs hx)
              (pyrange_sep _ _) hc hcol
          · exact ih _ (fun x hx => hrs x (List.mem_cons_of_mem r0 hx))
              (List.pairwise_cons.mp hsep).2 hr' hok

end LoopLemmas

/-! ### C3: which tiles the driver actually writes -/

/-- C3 counterexample: in a 10×10 image with `blockSize = 5`, the tile
with top-left `(5,5)` fits entirely inside the image (`5 + 5 ≤ 10`) and
`rows % blockSize = 0`, so the claimed remainder strip (narrower than
`blockSize`) is empty; yet the assembled buffer is `0` at pixel `(5,5)`
although `frequest` on that very tile returns the non-zero constant patch
`1/2`: the loop `range(0, rows - block_size, block_size)` skips the last
fitting tile. -/
theorem tiling_skips_last_fitting_tile :
    (5 + 5 ≤ 10 ∧ 10 % 5 = 0) ∧
    isOkE (freqFn rotId
      [[0,0,0,0,0,0,0,0,0,0],
       [0,0,0,0,0,0,0,0,0,0],
       [0,0,0,0,0,0,0,0,0,0],
       [0,0,0,0,0,0,0,0,0,0],
       [0,0,0,0,0,0,0,0,0,0],
       [0,0,0,0,0,0,0,0,0,0],
       [0,0,0,0,0,0,3,0,3,0],
       [0,0,0,0,0,0,0,0,0,0],
       [0,0,0,0,0,0,0,0,0,0],
       [0,0,0,0,0,0,0,0,0,0]] [[(0 : ℝ)]] 5 3 1 5) = true ∧
    evalAtD (freqFn rotId
      [[0,0,0,0,0,0,0,0,0,0],
       [0,0,0,0,0,0,0,0,0,0],
       [0,0,0,0,0,0,0,0,0,0],
       [0,0,0,0,0,0,0,0,0,0],
       [0,0,0,0,0,0,0,0,0,0],
       [0,0,0,0,0,0,0,0,0,0],
       [0,0,0,0,0,0,3,0,3,0],
       [0,0,0,0,0,0,0,0,0,0],
       [0,0,0,0,0,0,0,0,0,0],
       [0,0,0,0,0,0,0,0,0,0]] [[(0 : ℝ)]] 5 3 1 5) 5 5 = 0 ∧
    frequest rotId (slice2d
      [[0,0,0,0,0,0,0,0,0,0],
       [0,0,0,0,0,0,0,0,0,0],
       [0,0,0,0,0,0,0,0,0,0],
       [0,0,0,0,0,0,0,0,0,0],
       [0,0,0,0,0,0,0,0,0,0],
       [0,0,0,0,0,0,0,0,0,0],
       [0,0,0,0,0,0,3,0,3,0],
       [0,0,0,0,0,0,0,0,0,0],
       [0,0,0,0,0,0,0,0,0,0],
       [0,0,0,0,0,0,0,0,0,0]] 5 5 5 5) [(0 : ℝ)] 3 1 5 = constGrid 5 5 (mkRat 1 2) ∧
    (mkRat 1 2 : ℚ) ≠ 0 :=
  ⟨⟨by decide, by decide⟩, by rfl, by decide, by decide, by decide⟩

/-- C3 corrected: the block loop writes the `frequest` patch into exactly
the `blockSize × blockSize` tiles whose top-left `(r, c)` lies on the
grid with `r < rows − blockSize` and `c < cols − blockSize` strictly (the
`pyrange` lists); every pixel in the trailing strips
`i ≥ bs·⌊(rows−1)/bs⌋` or `j ≥ bs·⌊(cols−1)/bs⌋` keeps the zero default.
When `blockSize` divides `rows` the zero strip is a full `blockSize`
wide (the last fitting tile is skipped); otherwise it is the partial
strip of width `rows mod blockSize`. -/
theorem tiling_coverage_amended (rot : RotFn) (im : Grid) (orient : List (List ℝ))
    (bs k : ℕ) (minW maxW : ℚ)
    (hbs : 1 ≤ bs)
    (hrect : ∀ r ∈ im, r.length = rowLen im)
    (hok : isOkE (freqFn rot im orient bs k minW maxW) = true) :
    (∀ i j, bs * ((im.length - 1) / bs) ≤ i ∨ bs * ((rowLen im - 1) / bs) ≤ j →
      evalAtD (freqFn rot im orient bs k minW maxW) i j = 0) ∧
    (∀ r c di dj, r ∈ pyrange (im.length - bs) bs → c ∈ pyrange (rowLen im - bs) bs →
      di < bs → dj < bs →
      ∃ th, orientAt orient (r / bs) (c / bs) = some th ∧
        evalAtD (freqFn rot im orient bs k minW maxW) (r + di) (c + dj) =
          ((frequest rot (slice2d im r bs c bs) [th] k minW maxW).getD di []).getD dj 0) := by
  cases hfe : freqFn rot im orient bs k minW maxW with
  | error e =>
      rw [hfe] at hok
      simp [isOkE] at hok
  | ok f =>
      have hfe2 : rowPass rot im orient bs k minW maxW (pyrange (im.length - bs) bs)
          (fun _ _ => 0) = Except.ok f := hfe
      constructor
      · intro i j hzone
        show f i j = 0
        rcases hzone with hz | hz
        · have := rowPass_untouched_row rot im orient bs k minW maxW _ _ f i j hfe2 ?_
          · rw [this]
          · intro r hr
            have := pyrange_le im.length bs r hbs hr
            omega
        · have := rowPass_untouched_col rot im orient bs k minW maxW _ _ f i j hfe2 ?_
          · rw [this]
          · intro c hc
            have := pyrange_le (rowLen im) bs c hbs hc
            omega
      · intro r c di dj hr hc hdi hdj
        have hval := rowPass_value rot im orient bs k minW maxW _ _ f hrect hbs
          r c (r + di) (c + dj) (Nat.le_add_right r di) (by omega)
          (Nat.le_add_right c dj) (by omega) hc
          (fun x hx => pyrange_bound im.length bs x hbs hx)
          (pyrange_sep _ _) hr hfe2
        rcases hval with ⟨th, hth, hv⟩
        refine ⟨th, hth, ?_⟩
        show f (r + di) (c + dj) = _
        rw [hv, Nat.add_sub_cancel_left, Nat.add_sub_cancel_left]

/-- Witness for the amended C3 on a concrete 2×2 image with
`blockSize = 1`. -/
theorem tiling_coverage_amended_witness :
    1 ≤ 1 ∧
    (∀ r ∈ ([[1, 2], [3, 4]] : Grid), r.length = rowLen [[1, 2], [3, 4]]) ∧
    isOkE (freqFn rotId [[1, 2], [3, 4]] [[(0 : ℝ)]] 1 3 1 5) = true ∧
    ((∀ i j, 1 * ((List.length ([[1, 2], [3, 4]] : Grid) - 1) / 1) ≤ i ∨
        1 * ((rowLen [[1, 2], [3, 4]] - 1) / 1) ≤ j →
      evalAtD (freqFn rotId [[1, 2], [3, 4]] [[(0 : ℝ)]] 1 3 1 5) i j = 0) ∧
    (∀ r c di dj, r ∈ pyrange (List.length ([[1, 2], [3, 4]] : Grid) - 1) 1 →
      c ∈ pyrange (rowLen [[1, 2], [3, 4]] - 1) 1 →
      di < 1 → dj < 1 →
      ∃ th, orientAt [[(0 : ℝ)]] (r / 1) (c / 1) = some th ∧
        evalAtD (freqFn rotId [[1, 2], [3, 4]] [[(0 : ℝ)]] 1 3 1 5) (r + di) (c + dj) =
          ((frequest rotId (slice2d [[1, 2], [3, 4]] r 1 c 1) [th] 3 1 5).getD di []).getD dj 0)) :=
  ⟨by decide, by decide, by rfl,
    tiling_coverage_amended rotId [[1, 2], [3, 4]] [[(0 : ℝ)]] 1 3 1 5
      (by decide) (by decide) (by rfl)⟩

/-! ### Entry invariants of the assembled map (C7, C9) -/

theorem getD_replicate_if {α : Type} (n : ℕ) (x d : α) (a : ℕ) :
    (List.replicate n x).getD a d = if a < n then x else d := by
  rw [List.getD_eq_getElem?_getD, List.getElem?_replicate]
  by_cases h : a < n
  · rw [if_pos h, if_pos h]
    rfl
  · rw [if_neg h, if_neg h]
    rfl

theorem getD_getD_zerosGrid (r c a b : ℕ) :
    (((zerosGrid r c).getD a []).getD b 0 : ℚ) = 0 := by
  rw [zerosGrid, getD_replicate_if]
  by_cases h : a < r
  · rw [if_pos h, getD_replicate_if]
    split <;> rfl
  · rw [if_neg h]
    rfl

theorem getD_getD_constGrid (r c : ℕ) (v : ℚ) (a b : ℕ) :
    (((constGrid r c v).getD a []).getD b 0 : ℚ) = v ∨
    (((constGrid r c v).getD a []).getD b 0 : ℚ) = 0 := by
  rw [constGrid, getD_replicate_if]
  by_cases h : a < r
  · rw [if_pos h, getD_replicate_if]
    by_cases hb : b < c
    · rw [if_pos hb]
      exact Or.inl rfl
    · rw [if_neg hb]
      exact Or.inr rfl
  · rw [if_neg h]
    exact Or.inr rfl

section LoopInvariant

variable (rot : RotFn) (im : Grid) (orient : List (List ℝ)) (bs k : ℕ) (minW maxW : ℚ)
variable (P : ℚ → Prop)

theorem writePatch_pres (f : ℕ → ℕ → ℚ) (r0 c0 : ℕ) (p : Grid)
    (hp : ∀ a b, P ((p.getD a []).getD b 0)) (hf : ∀ i j, P (f i j)) :
    ∀ i j, P (writePatch f r0 c0 p i j) := by
  intro i j
  rw [writePatch]
  split
  · exact hp _ _
  · exact hf i j

theorem colPass_pres (row : ℕ) (cs : List ℕ) (f g : ℕ → ℕ → ℚ)
    (hpatch : ∀ (b : Grid) (th : ℝ) (a bi : ℕ),
      P (((frequest rot b [th] k minW maxW).getD a []).getD bi 0))
    (hok : colPass rot im orient bs k minW maxW row cs f = Except.ok g)
    (hf : ∀ i j, P (f i j)) : ∀ i j, P (g i j) := by
  induction cs generalizing f with
  | nil =>
      simp only [colPass] at hok
      cases hok
      exact hf
  | cons c cs' ih =>
      simp only [colPass] at hok
      cases horient : orientAt orient (row / bs) (c / bs) with
      | none =>
          rw [horient] at hok
          cases hok
      | some th =>
          rw [horient] at hok
          exact ih _ hok (writePatch_pres P f row c _ (fun a b => hpatch _ th a b) hf)

theorem rowPass_pres (rs : List ℕ) (f g : ℕ → ℕ → ℚ)
    (hpatch : ∀ (b : Grid) (th : ℝ) (a bi : ℕ),
      P (((frequest rot b [th] k minW maxW).getD a []).getD bi 0))
    (hok : rowPass rot im orient bs k minW maxW rs f = Except.ok g)
    (hf : ∀ i j, P (f i j)) : ∀ i j, P (g i j) := by
  induction rs generalizing f with
  | nil =>
      simp only [rowPass] at hok
      cases hok
      exact hf
  | cons r rs' ih =>
      simp only [rowPass] at hok
      cases hcol : colPass rot im orient bs k minW maxW r (pyrange (rowLen im - bs) bs) f with
      | error e =>
          rw [hcol] at hok
          cases hok
      | ok g0 =>
          rw [hcol] at hok
          exact ih _ hok (colPass_pres rot im orient bs k minW maxW P r _ f g0 hpatch hcol hf)

end LoopInvariant

/-- Every entry read from a `frequest` patch (defaults included) is zero
or a positive in-range reciprocal wavelength. -/
theorem frequest_entry_good (rot : RotFn) (b : Grid) (orientim : List ℝ)
    (k : ℕ) (minW maxW : ℚ) (a bi : ℕ) :
    (((frequest rot b orientim k minW maxW).getD a []).getD bi 0) = 0 ∨
    (0 < ((frequest rot b orientim k minW maxW).getD a []).getD bi 0 ∧
      ∃ wl, minW ≤ wl ∧ wl ≤ maxW ∧
        ((frequest rot b orientim k minW maxW).getD a []).getD bi 0 = 1 / wl) := by
  rcases frequest_cases rot b orientim k minW maxW with h | ⟨wl, h1, h2, h3, h⟩
  · rw [h]
    exact Or.inl (getD_getD_zerosGrid _ _ a bi)
  · rw [h]
    rcases getD_getD_constGrid b.length (rowLen b) (1 / wl) a bi with he | he
    · rw [he]
      exact Or.inr ⟨one_div_pos.mpr (lt_of_lt_of_le one_pos h1), wl, h2, h3, rfl⟩
    · rw [he]
      exact Or.inl rfl

/-- The shape and value range of a successfully assembled FrequencyMap
(helper carrying the proof). -/
theorem freqMap_entries_spec (rot : RotFn) (im : Grid) (orient : List (List ℝ))
    (bs k : ℕ) (minW maxW : ℚ) (g : Grid)
    (hg : freqMap rot im orient bs k minW maxW = Except.ok g) :
    g.length = im.length ∧ (∀ row ∈ g, row.length = rowLen im) ∧
    (∀ row ∈ g, ∀ x ∈ row,
      x = 0 ∨ (0 < x ∧ ∃ wl, minW ≤ wl ∧ wl ≤ maxW ∧ x = 1 / wl)) := by
  rw [freqMap] at hg
  cases hfe : freqFn rot im orient bs k minW maxW with
  | error e =>
      rw [hfe] at hg
      cases hg
  | ok f =>
      rw [hfe] at hg
      injection hg with hgeq
      have hfgood : ∀ i j, f i j = 0 ∨
          (0 < f i j ∧ ∃ wl, minW ≤ wl ∧ wl ≤ maxW ∧ f i j = 1 / wl) := by
        apply rowPass_pres rot im orient bs k minW maxW
          (fun x => x = 0 ∨ (0 < x ∧ ∃ wl, minW ≤ wl ∧ wl ≤ maxW ∧ x = 1 / wl))
          _ _ _ (fun b th a bi => frequest_entry_good rot b [th] k minW maxW a bi) hfe
        intro i j
        exact Or.inl rfl
      subst hgeq
      refine ⟨by simp, ?_, ?_⟩
      · intro row hrow
        rcases List.mem_map.mp hrow with ⟨i, hi, rfl⟩
        simp
      · intro row hrow x hx
        rcases List.mem_map.mp hrow with ⟨i, hi, rfl⟩
        rcases List.mem_map.mp hx with ⟨j, hj, rfl⟩
        exact hfgood i j

/-- C7: a successfully assembled FrequencyMap has the image's shape and
every value is either `0` or the reciprocal of a wavelength inside
`[minWaveLength, maxWaveLength]`; in particular no value is negative (a
positivity conjunct accompanies every non-zero value). -/
theorem freqMap_shape_and_value_range (rot : RotFn) (im : Grid) (orient : List (List ℝ))
    (bs k : ℕ) (minW maxW : ℚ) (g : Grid)
    (hg : freqMap rot im orient bs k minW maxW = Except.ok g) :
    g.length = im.length ∧ (∀ row ∈ g, row.length = rowLen im) ∧
    (∀ row ∈ g, ∀ x ∈ row,
      x = 0 ∨ (0 < x ∧ ∃ wl, minW ≤ wl ∧ wl ≤ maxW ∧ x = 1 / wl)) :=
  freqMap_entries_spec rot im orient bs k minW maxW g hg

/-- Witness for C7 on a concrete 1×1 image with `blockSize = 1`. -/
theorem freqMap_shape_and_value_range_witness :
    freqMap rotId [[1]] [[(0 : ℝ)]] 1 3 1 5 = Except.ok [[0]] ∧
    (List.length ([[(0 : ℚ)]] : Grid) = List.length ([[1]] : Grid) ∧
     (∀ row ∈ ([[(0 : ℚ)]] : Grid), row.length = rowLen [[1]]) ∧
     (∀ row ∈ ([[(0 : ℚ)]] : Grid), ∀ x ∈ row,
       x = 0 ∨ (0 < x ∧ ∃ wl, (1 : ℚ) ≤ wl ∧ wl ≤ 5 ∧ x = 1 / wl))) :=
  ⟨by rfl, freqMap_shape_and_value_range rotId [[1]] [[(0 : ℝ)]] 1 3 1 5 [[0]] (by rfl)⟩

/-! ### The driver tail: masking, median, sentinel (C4, C5, C9, C10) -/

/-- Unfolds `ridge_freq` on a successful map into the median expression
the source computes through `reshape`/`np.where`/index gathering. -/
theorem ridge_freq_ok (rot : RotFn) (im mask : Grid) (orient : List (List ℝ))
    (bs k : ℕ) (minW maxW : ℚ) (G : Grid) (hbs : bs ≠ 0)
    (hmap : freqMap rot im orient bs k minW maxW = Except.ok G) :
    ridge_freq rot im mask orient bs k minW maxW =
      Except.ok (scalarTimesMask (npMedian
        (((List.range (gridMul G mask).flatten.length).filter
            (fun t => decide (0 < (gridMul G mask).flatten.getD t 0))).map
          (fun t => (gridMul G mask).flatten.getD t 0))) mask) := by
  rw [ridge_freq, if_neg hbs, hmap]

theorem mem_zipWith {α β γ : Type} (f : α → β → γ) :
    ∀ (l1 : List α) (l2 : List β) (x : γ),
    x ∈ List.zipWith f l1 l2 → ∃ a ∈ l1, ∃ b ∈ l2, x = f a b
  | [], _, x, hx => by simp at hx
  | _ :: _, [], x, hx => by simp at hx
  | a :: l1, b :: l2, x, hx => by
      rcases List.mem_cons.mp hx with rfl | hx'
      · exact ⟨a, by simp, b, by simp, rfl⟩
      · rcases mem_zipWith f l1 l2 x hx' with ⟨a', ha', b', hb', rfl⟩
        exact ⟨a', by simp [ha'], b', by simp [hb'], rfl⟩

theorem mem_gridMul (G M : Grid) (x : ℚ) (hx : x ∈ (gridMul G M).flatten) :
    ∃ a b, (∃ ra ∈ G, a ∈ ra) ∧ (∃ rb ∈ M, b ∈ rb) ∧ x = qmul a b := by
  rcases List.mem_flatten.mp hx with ⟨row, hrow, hxrow⟩
  rcases mem_zipWith _ _ _ _ hrow with ⟨ra, hra, rb, hrb, rfl⟩
  rcases mem_zipWith _ _ _ _ hxrow with ⟨a, ha, b, hb, rfl⟩
  exact ⟨a, b, ⟨ra, hra, ha⟩, ⟨rb, hrb, hb⟩, rfl⟩

/-- When every entry of the masked map is zero, `ridge_freq` returns the
NaN sentinel (`none`) broadcast over the mask. -/
theorem ridge_freq_nan_of_zero_flatten (rot : RotFn) (im mask : Grid)
    (orient : List (List ℝ)) (bs k : ℕ) (minW maxW : ℚ) (G : Grid) (hbs : bs ≠ 0)
    (hmap : freqMap rot im orient bs k minW maxW = Except.ok G)
    (hflat : ∀ x ∈ (gridMul G mask).flatten, x = 0) :
    ridge_freq rot im mask orient bs k minW maxW =
      Except.ok (mask.map (fun row => row.map (fun _ => (none : Option ℚ)))) := by
  rw [ridge_freq_ok rot im mask orient bs k minW maxW G hbs hmap]
  have hfilter : (List.range (gridMul G mask).flatten.length).filter
      (fun t => decide (0 < (gridMul G mask).flatten.getD t 0)) = [] := by
    rw [List.filter_eq_nil_iff]
    intro t ht
    have htl : t < (gridMul G mask).flatten.length := List.mem_range.mp ht
    rw [List.getD_eq_getElem _ 0 htl, hflat _ (List.getElem_mem htl)]
    simp
  rw [hfilter]
  rfl

/-- The entries of `freqMap` read out to the buffer values, which are all
zero when `maxWaveLength < minWaveLength`. -/
theorem freqMap_zero_of_gt (rot : RotFn) (im : Grid) (orient : List (List ℝ))
    (bs k : ℕ) (minW maxW : ℚ) (hgt : maxW < minW) (G : Grid)
    (hmap : freqMap rot im orient bs k minW maxW = Except.ok G) :
    ∀ row ∈ G, ∀ x ∈ row, x = 0 := by
  have h := freqMap_entries_spec rot im orient bs k minW maxW G hmap
  intro row hrow x hx
  rcases h.2.2 row hrow x hx with h0 | ⟨_, wl, h2, h3, _⟩
  · exact h0
  · linarith

/-- C9 counterexample: with `minWaveLength = 5 > 1 = maxWaveLength` — an
invalid configuration — `ridge_freq` reports no error at all: it runs to
completion and returns the NaN-sentinel grid. -/
theorem ridge_freq_no_validation :
    ¬ ((5 : ℚ) ≤ 1) ∧
    ridge_freq rotId [[1]] [[1]] [[(0 : ℝ)]] 1 3 5 1 = Except.ok [[none]] :=
  ⟨by decide, by rfl⟩

/-- C9 corrected: `ridge_freq` performs no upfront parameter validation.
With `minWaveLength > maxWaveLength` it completes without reporting any
error: every block estimate fails the wavelength window, the map stays
zero, and the NaN sentinel grid is returned.  (A too-small orientation
field is discovered only when the block loop first reads it — the
`IndexError` branch of `colPass` — and `blockSize = 0` surfaces as the
`range` step error, both during, not before, the computation.) -/
theorem ridge_freq_min_gt_max_no_error (rot : RotFn) (im mask : Grid)
    (orient : List (List ℝ)) (bs k : ℕ) (minW maxW : ℚ)
    (hbs : bs ≠ 0) (hgt : maxW < minW) (G : Grid)
    (hmap : freqMap rot im orient bs k minW maxW = Except.ok G) :
    ridge_freq rot im mask orient bs k minW maxW =
      Except.ok (mask.map (fun row => row.map (fun _ => (none : Option ℚ)))) := by
  apply ridge_freq_nan_of_zero_flatten rot im mask orient bs k minW maxW G hbs hmap
  intro x hx
  rcases mem_gridMul G mask x hx with ⟨a, b, ⟨ra, hra, ha⟩, _, rfl⟩
  have ha0 : a = 0 := freqMap_zero_of_gt rot im orient bs k minW maxW hgt G hmap ra hra a ha
  rw [ha0, qmul_eq, zero_mul]

/-- Witness for the amended C9: a 1×1 image, `blockSize = 1`, window
`minWaveLength = 5 > 1 = maxWaveLength`. -/
theorem ridge_freq_min_gt_max_no_error_witness :
    (1 : ℕ) ≠ 0 ∧ (1 : ℚ) < 5 ∧
    freqMap rotId [[1]] [[(0 : ℝ)]] 1 3 5 1 = Except.ok [[0]] ∧
    ridge_freq rotId [[1]] [[1]] [[(0 : ℝ)]] 1 3 5 1 =
      Except.ok ((([[1]] : Grid)).map (fun row => row.map (fun _ => (none : Option ℚ)))) :=
  ⟨by decide, by decide, by rfl,
    ridge_freq_min_gt_max_no_error rotId [[1]] [[1]] [[(0 : ℝ)]] 1 3 5 1
      (by decide) (by decide) [[0]] (by rfl)⟩

/-- C5: when the mask is all zeros, every entry of the masked map is zero,
the positive set is empty, and `ridge_freq` returns the defined NaN
sentinel (`none` in the embedding, `np.median([]) = nan` in numpy, which
warns but does not raise); it never crashes. -/
theorem ridge_freq_empty_positive_sentinel (rot : RotFn) (im mask : Grid)
    (orient : List (List ℝ)) (bs k : ℕ) (minW maxW : ℚ) (hbs : bs ≠ 0)
    (G : Grid) (hmap : freqMap rot im orient bs k minW maxW = Except.ok G)
    (hmask : ∀ row ∈ mask, ∀ x ∈ row, x = 0) :
    ridge_freq rot im mask orient bs k minW maxW =
      Except.ok (mask.map (fun row => row.map (fun _ => (none : Option ℚ)))) := by
  apply ridge_freq_nan_of_zero_flatten rot im mask orient bs k minW maxW G hbs hmap
  intro x hx
  rcases mem_gridMul G mask x hx with ⟨a, b, _, ⟨rb, hrb, hb⟩, rfl⟩
  have hb0 : b = 0 := hmask rb hrb b hb
  rw [hb0, qmul_eq, mul_zero]

/-- Witness for C5: all-zero mask over a 1×1 image. -/
theorem ridge_freq_empty_positive_sentinel_witness :
    (1 : ℕ) ≠ 0 ∧
    freqMap rotId [[1]] [[(0 : ℝ)]] 1 3 1 5 = Except.ok [[0]] ∧
    (∀ row ∈ ([[0]] : Grid), ∀ x ∈ row, x = 0) ∧
    ridge_freq rotId [[1]] [[0]] [[(0 : ℝ)]] 1 3 1 5 =
      Except.ok ((([[0]] : Grid)).map (fun row => row.map (fun _ => (none : Option ℚ)))) :=
  ⟨by decide, by rfl, by decide,
    ridge_freq_empty_positive_sentinel rotId [[1]] [[0]] [[(0 : ℝ)]] 1 3 1 5
      (by decide) [[0]] (by rfl) (by decide)⟩

/-- The `np.where` index-gathering of the source equals a direct filter of
the flattened list by positivity. -/
theorem gather_positive_eq_filter (l : List ℚ) :
    ((List.range l.length).filter (fun t => decide (0 < l.getD t 0))).map
      (fun t => l.getD t 0) = l.filter (fun x => decide (0 < x)) := by
  induction l with
  | nil => rfl
  | cons x xs ih =>
      rw [List.length_cons, List.range_succ_eq_map, List.filter_cons]
      by_cases h0 : (0 : ℚ) < x
      · rw [if_pos (by simpa using h0)]
        rw [List.map_cons]
        show (x :: _ : List ℚ) = _
        rw [List.filter_cons, if_pos (by simpa using h0)]
        congr 1
        rw [List.filter_map, List.map_map, ← ih]
        rfl
      · rw [if_neg (by simpa using h0)]
        rw [List.filter_cons, if_neg (by simpa using h0)]
        rw [List.filter_map, List.map_map, ← ih]
        rfl

/-- C4: on a successful run, `ridge_freq` multiplies the assembled
FrequencyMap elementwise by the mask, takes the median of the strictly
positive entries of the masked map, and returns that median multiplied
elementwise by the mask again (an `Option`-valued grid, not a scalar:
for a non-uniform mask the result is a 2-D grid). -/
theorem ridge_freq_median_of_masked_positives (rot : RotFn) (im mask : Grid)
    (orient : List (List ℝ)) (bs k : ℕ) (minW maxW : ℚ) (hbs : bs ≠ 0)
    (G : Grid) (hmap : freqMap rot im orient bs k minW maxW = Except.ok G) :
    ridge_freq rot im mask orient bs k minW maxW =
      Except.ok (scalarTimesMask
        (npMedian ((gridMul G mask).flatten.filter (fun x => decide (0 < x)))) mask) := by
  rw [ridge_freq_ok rot im mask orient bs k minW maxW G hbs hmap,
    gather_positive_eq_filter]

/-- Witness for C4 on a 1×1 image with unit mask. -/
theorem ridge_freq_median_of_masked_positives_witness :
    (1 : ℕ) ≠ 0 ∧
    freqMap rotId [[1]] [[(0 : ℝ)]] 1 3 1 5 = Except.ok [[0]] ∧
    ridge_freq rotId [[1]] [[1]] [[(0 : ℝ)]] 1 3 1 5 =
      Except.ok (scalarTimesMask
        (npMedian ((gridMul [[0]] [[1]]).flatten.filter (fun x => decide (0 < x)))) [[1]]) :=
  ⟨by decide, by rfl,
    ridge_freq_median_of_masked_positives rotId [[1]] [[1]] [[(0 : ℝ)]] 1 3 1 5
      (by decide) [[0]] (by rfl)⟩

/-! ### C10: masking idempotence -/

/-- C10 counterexample: for the continuous-weight mask `[[1/2]]` — which
`ridge_freq` accepts and the spec's data model explicitly allows — the
masking step is not idempotent: `(F·M)·M = 1/4 ≠ 1/2 = F·M`. -/
theorem mask_idempotence_fails_nonbinary :
    gridMul (gridMul [[(1 : ℚ)]] [[mkRat 1 2]]) [[mkRat 1 2]] ≠
      gridMul [[(1 : ℚ)]] [[mkRat 1 2]] := by decide

theorem zipWith_qmul_idem (ra rm : List ℚ) (hm : ∀ x ∈ rm, x = 0 ∨ x = 1) :
    List.zipWith qmul (List.zipWith qmul ra rm) rm = List.zipWith qmul ra rm := by
  induction ra generalizing rm with
  | nil => rfl
  | cons a ra' ih =>
      cases rm with
      | nil => rfl
      | cons m rm' =>
          simp only [List.zipWith_cons_cons]
          have h1 : qmul (qmul a m) m = qmul a m := by
            rcases hm m (by simp) with rfl | rfl
            · rw [qmul_eq, qmul_eq, mul_zero, mul_zero]
            · rw [qmul_eq, qmul_eq, mul_one]
          rw [h1, ih rm' (fun x hx => hm x (List.mem_cons_of_mem m hx))]

/-- C10 corrected: masking is idempotent for binary masks (entries in
`{0, 1}`): `(F·M)·M = F·M` for the elementwise product `ridge_freq`
uses; for continuous-weight masks it fails, as the counterexample above
shows. -/
theorem mask_idempotence_binary (F M : Grid)
    (hM : ∀ row ∈ M, ∀ x ∈ row, x = 0 ∨ x = 1) :
    gridMul (gridMul F M) M = gridMul F M := by
  rw [gridMul, gridMul]
  induction F generalizing M with
  | nil => rfl
  | cons rF F' ih =>
      cases M with
      | nil => rfl
      | cons rM M' =>
          simp only [List.zipWith_cons_cons]
          rw [zipWith_qmul_idem rF rM (hM rM (by simp)),
            ih M' (fun row hrow x hx => hM row (List.mem_cons_of_mem rM hrow) x hx)]

/-- Witness for the amended C10 on a binary mask. -/
theorem mask_idempotence_binary_witness :
    (∀ row ∈ ([[0, 1]] : Grid), ∀ x ∈ row, x = 0 ∨ x = 1) ∧
    gridMul (gridMul [[2, 3]] [[0, 1]]) [[0, 1]] = gridMul [[2, 3]] [[0, 1]] :=
  ⟨by decide, mask_idempotence_binary [[2, 3]] [[0, 1]] (by decide)⟩
